import Mathlib

/-!
# Verification of the tic-tac-toe AI lab core

A shallow embedding of the game logic of this repository: the outcome
evaluator (calculateWinner), the heuristic move selector (findBestMove),
the simulation-driver step, the result-batching step and the
history-fetch step, translated from src/src/App.jsx and the unnamed
variant source file, together with theorems settling the specified
properties.

JS null cells are modelled as Option; a JS array of cells is a List.
Out-of-range array reads yield undefined, which behaves exactly like an
empty cell in every test the code performs, so reads are modelled with
List.getD with default none.  The one source of randomness,
Math.floor(Math.random() * n), is modelled by an arbitrary natural
number draw reduced modulo n: the set of values the JS expression can
take is exactly the set of values draw % n takes as draw ranges over
all naturals.
-/

/-- A player marker: the JS strings 'X' and 'O'. -/
inductive Player
  | X
  | O
deriving DecidableEq, Repr, Fintype

/-- A board cell: the marker occupying it, or none for JS null. -/
abbrev Cell := Option Player

/-- A board: the JS array of cells (length 9 throughout the app). -/
abbrev Board := List Cell

/-- Reading squares[i]; an out-of-range read gives undefined, which the
code only ever uses in falsy tests and failed === comparisons, exactly
like an empty cell. -/
def cellAt (squares : Board) (i : Nat) : Cell := squares.getD i none

/-- The fixed table of the 8 winning lines of calculateWinner:
3 rows, then 3 columns, then 2 diagonals. -/
def lines : List (Nat × Nat × Nat) :=
  [(0, 1, 2), (3, 4, 5), (6, 7, 8),
   (0, 3, 6), (1, 4, 7), (2, 5, 8),
   (0, 4, 8), (2, 4, 6)]

/-- The body of calculateWinner's loop for a single line [a, b, c]:
if squares[a] is non-null and squares[a] === squares[b] and
squares[a] === squares[c], the result { winner: squares[a], line }. -/
def checkLine (squares : Board) (l : Nat × Nat × Nat) :
    Option (Player × (Nat × Nat × Nat)) :=
  match cellAt squares l.1 with
  | some p =>
      if cellAt squares l.2.1 = some p ∧ cellAt squares l.2.2 = some p then
        some (p, l)
      else
        none
  | none => none

/-- The for-of loop of calculateWinner over the line table: the first
line whose check succeeds supplies the returned value. -/
def findLine (squares : Board) : List (Nat × Nat × Nat) → Option (Player × (Nat × Nat × Nat))
  | [] => none
  | l :: ls =>
    match checkLine squares l with
    | some r => some r
    | none => findLine squares ls

/-- calculateWinner from src/src/App.jsx lines 69-82: scan the 8 fixed
lines and return the first { winner, line } found, or null. -/
def calculateWinner (squares : Board) : Option (Player × (Nat × Nat × Nat)) :=
  findLine squares lines

/-- The j-th entry of the line table. -/
def lineAt (j : Nat) : Nat × Nat × Nat := lines.getD j (0, 0, 0)

/-- A completed line on a board: all three of its cells hold the same
non-empty marker. -/
def completedLine (squares : Board) (l : Nat × Nat × Nat) : Prop :=
  ∃ p, cellAt squares l.1 = some p ∧ cellAt squares l.2.1 = some p ∧
    cellAt squares l.2.2 = some p

instance (b : Board) (l : Nat × Nat × Nat) : Decidable (completedLine b l) := by
  unfold completedLine
  infer_instance

theorem checkLine_of_empty {b : Board} {l : Nat × Nat × Nat}
    (h : cellAt b l.1 = none) : checkLine b l = none := by
  simp [checkLine, h]

theorem checkLine_of_pos {b : Board} {l : Nat × Nat × Nat} {p : Player}
    (h : cellAt b l.1 = some p) (h2 : cellAt b l.2.1 = some p)
    (h3 : cellAt b l.2.2 = some p) : checkLine b l = some (p, l) := by
  simp [checkLine, h, h2, h3]

theorem checkLine_of_neg {b : Board} {l : Nat × Nat × Nat} {p : Player}
    (h : cellAt b l.1 = some p)
    (hc : ¬ (cellAt b l.2.1 = some p ∧ cellAt b l.2.2 = some p)) :
    checkLine b l = none := by
  simp only [checkLine, h]
  rw [if_neg hc]

theorem checkLine_eq_some_iff {b : Board} {l : Nat × Nat × Nat}
    {r : Player × (Nat × Nat × Nat)} :
    checkLine b l = some r ↔
      r.2 = l ∧ cellAt b l.1 = some r.1 ∧ cellAt b l.2.1 = some r.1 ∧
        cellAt b l.2.2 = some r.1 := by
  constructor
  · intro hr
    cases h : cellAt b l.1 with
    | none =>
        rw [checkLine_of_empty h] at hr
        exact absurd hr (by simp)
    | some p =>
        by_cases hc : cellAt b l.2.1 = some p ∧ cellAt b l.2.2 = some p
        · rw [checkLine_of_pos h hc.1 hc.2] at hr
          obtain rfl : (p, l) = r := by injection hr
          exact ⟨rfl, rfl, hc.1, hc.2⟩
        · rw [checkLine_of_neg h hc] at hr
          exact absurd hr (by simp)
  · rintro ⟨h2, h1, hb1, hc1⟩
    obtain ⟨p, l'⟩ := r
    simp only at h2 h1 hb1 hc1
    subst h2
    exact checkLine_of_pos h1 hb1 hc1

theorem checkLine_eq_none_iff {b : Board} {l : Nat × Nat × Nat} :
    checkLine b l = none ↔ ¬ completedLine b l := by
  constructor
  · intro h hc
    obtain ⟨p, h1, h2, h3⟩ := hc
    have : checkLine b l = some (p, l) :=
      checkLine_eq_some_iff.mpr ⟨rfl, h1, h2, h3⟩
    rw [h] at this
    exact absurd this (by simp)
  · intro hc
    cases h : checkLine b l with
    | none => rfl
    | some r =>
        obtain ⟨_, h1, h2, h3⟩ := checkLine_eq_some_iff.mp h
        exact absurd ⟨r.1, h1, h2, h3⟩ hc

theorem findLine_eq_none_iff {b : Board} {L : List (Nat × Nat × Nat)} :
    findLine b L = none ↔ ∀ l ∈ L, checkLine b l = none := by
  induction L with
  | nil => simp [findLine]
  | cons l ls ih =>
      unfold findLine
      cases h : checkLine b l with
      | some r => simp [h]
      | none => simp [h, ih]

theorem findLine_eq_some_iff {b : Board} {L : List (Nat × Nat × Nat)}
    {r : Player × (Nat × Nat × Nat)} :
    findLine b L = some r ↔
      ∃ j, j < L.length ∧ checkLine b (L.getD j (0, 0, 0)) = some r ∧
        ∀ k, k < j → checkLine b (L.getD k (0, 0, 0)) = none := by
  induction L with
  | nil =>
      simp [findLine]
  | cons l ls ih =>
      unfold findLine
      cases h : checkLine b l with
      | some r' =>
          constructor
          · intro hr
            obtain rfl : r' = r := by injection hr
            exact ⟨0, by simp, by simpa using h, fun k hk => absurd hk (Nat.not_lt_zero k)⟩
          · rintro ⟨j, hj, hs, hp⟩
            cases j with
            | zero => simp only [List.getD_cons_zero] at hs; rw [h] at hs; exact hs
            | succ j =>
                have h0 := hp 0 (Nat.succ_pos j)
                simp only [List.getD_cons_zero] at h0
                rw [h] at h0
                exact absurd h0 (by simp)
      | none =>
          rw [ih]
          constructor
          · rintro ⟨j, hj, hs, hp⟩
            refine ⟨j + 1, by simpa using Nat.succ_lt_succ hj, by simpa using hs, ?_⟩
            intro k hk
            cases k with
            | zero => simpa using h
            | succ k => simpa using hp k (Nat.lt_of_succ_lt_succ hk)
          · rintro ⟨j, hj, hs, hp⟩
            cases j with
            | zero =>
                simp only [List.getD_cons_zero] at hs
                rw [h] at hs
                exact absurd hs (by simp)
            | succ j =>
                refine ⟨j, by simpa using Nat.lt_of_succ_lt_succ hj, by simpa using hs, ?_⟩
                intro k hk
                simpa using hp (k + 1) (Nat.succ_lt_succ hk)

/-- C1: for every 9-cell board, calculateWinner returns none when no
line of the table is completed, and when some line is completed it
returns the marker and line of the first completed line in the fixed
table order (3 rows, then 3 columns, then 2 diagonals); in particular,
when exactly one line is completed it returns that marker and line. -/
theorem c1_calculateWinner_spec (b : Board) (hb : b.length = 9) :
    ((∀ l ∈ lines, ¬ completedLine b l) → calculateWinner b = none) ∧
    (∀ j, j < lines.length → completedLine b (lineAt j) →
      (∀ k, k < j → ¬ completedLine b (lineAt k)) →
      ∃ p, cellAt b (lineAt j).1 = some p ∧
        calculateWinner b = some (p, lineAt j)) := by
  constructor
  · intro h
    exact findLine_eq_none_iff.mpr fun l hl => checkLine_eq_none_iff.mpr (h l hl)
  · intro j hj hcomp hprev
    obtain ⟨p, h1, h2, h3⟩ := hcomp
    refine ⟨p, h1, ?_⟩
    exact findLine_eq_some_iff.mpr
      ⟨j, hj, checkLine_eq_some_iff.mpr ⟨rfl, h1, h2, h3⟩,
        fun k hk => checkLine_eq_none_iff.mpr (hprev k hk)⟩

/-- A board with exactly one completed line (X on the top row). -/
def exOneLine : Board :=
  [some Player.X, some Player.X, some Player.X,
   some Player.O, some Player.O, none,
   none, none, none]

/-- A full board with no completed line. -/
def exNoLine : Board :=
  [some Player.X, some Player.O, some Player.X,
   some Player.O, some Player.X, some Player.O,
   some Player.O, some Player.X, some Player.O]

theorem c1_calculateWinner_spec_witness :
    calculateWinner exNoLine = none ∧
      ∃ p, cellAt exOneLine (lineAt 0).1 = some p ∧
        calculateWinner exOneLine = some (p, lineAt 0) :=
  ⟨(c1_calculateWinner_spec exNoLine (by decide)).1 (by decide),
   (c1_calculateWinner_spec exOneLine (by decide)).2 0 (by decide) (by decide)
     (fun k hk => absurd hk (Nat.not_lt_zero k))⟩

/-! ## Board update helpers -/

theorem cellAt_cons_zero {c : Cell} {cs : Board} : cellAt (c :: cs) 0 = c := rfl

theorem cellAt_cons_succ {c : Cell} {cs : Board} {k : Nat} :
    cellAt (c :: cs) (k + 1) = cellAt cs k := rfl

theorem cellAt_set_self {b : Board} {i : Nat} {v : Cell} (h : i < b.length) :
    cellAt (b.set i v) i = v := by
  simp [cellAt, List.getD_eq_getElem?_getD, List.getElem?_set_self h]

theorem cellAt_set_ne {b : Board} {i j : Nat} {v : Cell} (h : i ≠ j) :
    cellAt (b.set i v) j = cellAt b j := by
  simp [cellAt, List.getD_eq_getElem?_getD, List.getElem?_set_ne h]

theorem checkLine_set_of_not_mem {b : Board} {i : Nat} {v : Cell}
    {l : Nat × Nat × Nat} (h1 : l.1 ≠ i) (h2 : l.2.1 ≠ i) (h3 : l.2.2 ≠ i) :
    checkLine (b.set i v) l = checkLine b l := by
  simp only [checkLine, cellAt_set_ne (Ne.symm h1), cellAt_set_ne (Ne.symm h2),
    cellAt_set_ne (Ne.symm h3)]

theorem checkLine_eq_none_of_cell_empty {b : Board} {l : Nat × Nat × Nat}
    (h : cellAt b l.1 = none ∨ cellAt b l.2.1 = none ∨ cellAt b l.2.2 = none) :
    checkLine b l = none := by
  cases hcl : checkLine b l with
  | none => rfl
  | some r =>
      obtain ⟨_, h1, h2, h3⟩ := checkLine_eq_some_iff.mp hcl
      rcases h with h | h | h <;>
        (first
          | (rw [h] at h1; exact absurd h1 (by simp))
          | (rw [h] at h2; exact absurd h2 (by simp))
          | (rw [h] at h3; exact absurd h3 (by simp)))

/-- Every line of the table: all three indices below 9 and pairwise distinct. -/
theorem lines_facts : ∀ l ∈ lines,
    l.1 < 9 ∧ l.2.1 < 9 ∧ l.2.2 < 9 ∧
      l.1 ≠ l.2.1 ∧ l.1 ≠ l.2.2 ∧ l.2.1 ≠ l.2.2 := by decide

theorem calculateWinner_isSome_of_completed {b : Board} {l : Nat × Nat × Nat}
    (hl : l ∈ lines) (hc : completedLine b l) :
    ∃ r, calculateWinner b = some r := by
  cases h : calculateWinner b with
  | some r => exact ⟨r, rfl⟩
  | none =>
      have := findLine_eq_none_iff.mp h l hl
      exact absurd hc (checkLine_eq_none_iff.mp this)

/-- Key marker lemma: placing marker q on an empty cell of a board whose
current evaluator verdict (if any) already names q can only produce a
verdict naming q, because every completed line of the updated board either
passes through the new cell (all-q) or was already complete. -/
theorem winner_set_marker {b : Board} {i : Nat} {q : Player}
    (hi : cellAt b i = none)
    (hb : ∀ r, calculateWinner b = some r → r.1 = q) :
    ∀ r, calculateWinner (b.set i (some q)) = some r → r.1 = q := by
  intro r hr
  by_cases hlen : i < b.length
  case neg =>
    rw [List.set_eq_of_length_le (Nat.le_of_not_lt hlen)] at hr
    exact hb r hr
  case pos =>
    obtain ⟨j, hj, hs, hp⟩ := findLine_eq_some_iff.mp hr
    obtain ⟨h2, ha, hb1, hc1⟩ := checkLine_eq_some_iff.mp hs
    by_cases hmem : (lines.getD j (0, 0, 0)).1 = i ∨
        (lines.getD j (0, 0, 0)).2.1 = i ∨ (lines.getD j (0, 0, 0)).2.2 = i
    · have hcell : cellAt (b.set i (some q)) i = some q := cellAt_set_self hlen
      rcases hmem with h | h | h
      · rw [h, hcell] at ha; injection ha with ha; exact ha.symm
      · rw [h, hcell] at hb1; injection hb1 with hb1; exact hb1.symm
      · rw [h, hcell] at hc1; injection hc1 with hc1; exact hc1.symm
    · push_neg at hmem
      obtain ⟨m1, m2, m3⟩ := hmem
      have hsb : checkLine b (lines.getD j (0, 0, 0)) = some r := by
        rw [← checkLine_set_of_not_mem (v := some q) m1 m2 m3]
        exact hs
      have hpb : ∀ k, k < j → checkLine b (lines.getD k (0, 0, 0)) = none := by
        intro k hk
        have hnone := hp k hk
        by_cases hmk : (lines.getD k (0, 0, 0)).1 = i ∨
            (lines.getD k (0, 0, 0)).2.1 = i ∨ (lines.getD k (0, 0, 0)).2.2 = i
        · refine checkLine_eq_none_of_cell_empty ?_
          rcases hmk with h | h | h
          · exact Or.inl (by rw [h]; exact hi)
          · exact Or.inr (Or.inl (by rw [h]; exact hi))
          · exact Or.inr (Or.inr (by rw [h]; exact hi))
        · push_neg at hmk
          rw [← checkLine_set_of_not_mem (v := some q) hmk.1 hmk.2.1 hmk.2.2]
          exact hnone
      exact hb r (findLine_eq_some_iff.mpr ⟨j, hj, hsb, hpb⟩)

/-! ## find? over an index range: first-hit characterisation -/

theorem find?_range'_eq_some_iff {p : Nat → Bool} :
    ∀ (n s i : Nat), (List.range' s n).find? p = some i ↔
      s ≤ i ∧ i < s + n ∧ p i = true ∧ ∀ j, s ≤ j → j < i → p j = false := by
  intro n
  induction n with
  | zero =>
      intro s i
      constructor
      · intro h; exact absurd h (by simp)
      · rintro ⟨h1, h2, -, -⟩; omega
  | succ n ih =>
      intro s i
      rw [List.range'_succ]
      by_cases hs : p s = true
      · rw [List.find?_cons_of_pos _ hs]
        constructor
        · intro h
          obtain rfl : s = i := by injection h
          exact ⟨Nat.le_refl _, by omega, hs, fun j h1 h2 => by omega⟩
        · rintro ⟨h1, h2, h3, h4⟩
          have hsi : s = i := by
            by_contra hne
            have := h4 s (Nat.le_refl _) (Nat.lt_of_le_of_ne h1 hne)
            rw [hs] at this
            exact absurd this (by simp)
          rw [hsi]
      · rw [List.find?_cons_of_neg _ hs]
        rw [ih (s + 1) i]
        have hs' : p s = false := by
          cases h : p s
          · rfl
          · exact absurd h hs
        constructor
        · rintro ⟨h1, h2, h3, h4⟩
          refine ⟨by omega, by omega, h3, fun j hj1 hj2 => ?_⟩
          rcases Nat.eq_or_lt_of_le hj1 with rfl | h'
          · exact hs'
          · exact h4 j h' hj2
        · rintro ⟨h1, h2, h3, h4⟩
          have hsi : s ≠ i := fun h => by rw [h, h3] at hs'; exact absurd hs' (by simp)
          exact ⟨by omega, by omega, h3, fun j hj1 hj2 => h4 j (by omega) hj2⟩

theorem find?_range_eq_some_iff {p : Nat → Bool} {n i : Nat} :
    (List.range n).find? p = some i ↔
      i < n ∧ p i = true ∧ ∀ j, j < i → p j = false := by
  rw [List.range_eq_range', find?_range'_eq_some_iff]
  constructor
  · rintro ⟨-, h2, h3, h4⟩
    exact ⟨by omega, h3, fun j hj => h4 j (Nat.zero_le j) hj⟩
  · rintro ⟨h1, h2, h3⟩
    exact ⟨Nat.zero_le i, by omega, h2, fun j _ hj => h3 j hj⟩

theorem find?_range_eq_none_iff {p : Nat → Bool} {n : Nat} :
    (List.range n).find? p = none ↔ ∀ i, i < n → p i = false := by
  rw [List.find?_eq_none]
  constructor
  · intro h i hi
    have := h i (List.mem_range.mpr hi)
    cases hp : p i
    · rfl
    · exact absurd hp this
  · intro h x hx hp
    rw [h x (List.mem_range.mp hx)] at hp
    exact absurd hp (by simp)

/-! ## The move selector findBestMove -/

/-- The binding const opponent = player === 'X' ? 'O' : 'X'. -/
def opponentOf (player : Player) : Player :=
  if player = Player.X then Player.O else Player.X

/-- The body of a selector tier at index i for marker m: copy the board
(const tempSquares = [...currentSquares]), place m at i
(tempSquares[i] = m), and test calculateWinner(tempSquares)?.winner === m. -/
def winsAt (currentSquares : Board) (m : Player) (i : Nat) : Bool :=
  match calculateWinner (currentSquares.set i (some m)) with
  | some r => decide (r.1 = m)
  | none => false

/-- The list of indices of empty cells:
currentSquares.map((val, index) => val === null ? index : null)
             .filter(val => val !== null). -/
def availableSquares (currentSquares : Board) : List Nat :=
  currentSquares.enum.filterMap fun iv => if iv.2 = none then some iv.1 else none

/-- findBestMove from src/src/App.jsx lines 108-137: try to win now
(first empty i whose occupation makes the evaluator name player), then
block (same with the opponent's marker), then pick an empty cell at
random, else return -1 (the initial value of the move variable). -/
def findBestMove (currentSquares : Board) (player : Player) (draw : Nat) : Int :=
  match (List.range currentSquares.length).find?
      (fun i => (cellAt currentSquares i).isNone && winsAt currentSquares player i) with
  | some i => (i : Int)
  | none =>
    match (List.range currentSquares.length).find?
        (fun i => (cellAt currentSquares i).isNone && winsAt currentSquares (opponentOf player) i) with
    | some i => (i : Int)
    | none =>
      if 0 < (availableSquares currentSquares).length then
        (((availableSquares currentSquares).getD
          (draw % (availableSquares currentSquares).length) 0 : Nat) : Int)
      else
        -1

/-- The cell i is an immediate winning move for marker m: it is empty
and occupying it with m makes the evaluator name m as winner. -/
def winNow (b : Board) (m : Player) (i : Nat) : Prop :=
  cellAt b i = none ∧ (calculateWinner (b.set i (some m))).map Prod.fst = some m

instance (b : Board) (m : Player) (i : Nat) : Decidable (winNow b m i) := by
  unfold winNow
  infer_instance

theorem tierPred_eq_true_iff {b : Board} {m : Player} {i : Nat} :
    ((cellAt b i).isNone && winsAt b m i) = true ↔ winNow b m i := by
  rw [Bool.and_eq_true, Option.isNone_iff_eq_none]
  unfold winNow winsAt
  cases h : calculateWinner (b.set i (some m)) with
  | none => simp
  | some r =>
      obtain ⟨w, l0⟩ := r
      simp [decide_eq_true_eq]

theorem tierPred_eq_false_iff {b : Board} {m : Player} {i : Nat} :
    ((cellAt b i).isNone && winsAt b m i) = false ↔ ¬ winNow b m i := by
  rw [← tierPred_eq_true_iff]
  cases h : ((cellAt b i).isNone && winsAt b m i) <;> simp

/-- If the win-now tier has a hit, findBestMove returns the first one. -/
theorem findBestMove_tier1 {b : Board} {p : Player} {d i : Nat}
    (h : winNow b p i) (hlt : i < b.length)
    (hleast : ∀ j, j < i → ¬ winNow b p j) :
    findBestMove b p d = (i : Int) := by
  have hf : (List.range b.length).find?
      (fun i => (cellAt b i).isNone && winsAt b p i) = some i :=
    find?_range_eq_some_iff.mpr
      ⟨hlt, tierPred_eq_true_iff.mpr h, fun j hj => tierPred_eq_false_iff.mpr (hleast j hj)⟩
  unfold findBestMove
  rw [hf]

/-- If the win-now tier misses everywhere and the block tier has a hit,
findBestMove returns the first blocking cell. -/
theorem findBestMove_tier2 {b : Board} {p : Player} {d i : Nat}
    (h1 : ∀ j, j < b.length → ¬ winNow b p j)
    (h : winNow b (opponentOf p) i) (hlt : i < b.length)
    (hleast : ∀ j, j < i → ¬ winNow b (opponentOf p) j) :
    findBestMove b p d = (i : Int) := by
  have hf1 : (List.range b.length).find?
      (fun i => (cellAt b i).isNone && winsAt b p i) = none :=
    find?_range_eq_none_iff.mpr fun j hj => tierPred_eq_false_iff.mpr (h1 j hj)
  have hf2 : (List.range b.length).find?
      (fun i => (cellAt b i).isNone && winsAt b (opponentOf p) i) = some i :=
    find?_range_eq_some_iff.mpr
      ⟨hlt, tierPred_eq_true_iff.mpr h, fun j hj => tierPred_eq_false_iff.mpr (hleast j hj)⟩
  unfold findBestMove
  rw [hf1, hf2]

/-! ## The random fallback and the no-move case -/

theorem mem_avail_aux :
    ∀ (b : Board) (n i : Nat),
      (i ∈ (b.enumFrom n).filterMap fun iv => if iv.2 = none then some iv.1 else none) ↔
        ∃ k, k < b.length ∧ i = n + k ∧ cellAt b k = none := by
  intro b
  induction b with
  | nil => simp
  | cons c cs ih =>
      intro n i
      rw [List.enumFrom_cons]
      cases c with
      | none =>
          have hstep : List.filterMap
              (fun (iv : Nat × Cell) => if iv.2 = none then some iv.1 else none)
              ((n, (none : Cell)) :: List.enumFrom (n + 1) cs) =
                n :: List.filterMap
                  (fun (iv : Nat × Cell) => if iv.2 = none then some iv.1 else none)
                  (List.enumFrom (n + 1) cs) := by
            rw [List.filterMap_cons]
            rfl
          rw [hstep, List.mem_cons]
          constructor
          · rintro (rfl | hmem)
            · exact ⟨0, by simp, by simp, by rw [cellAt_cons_zero]⟩
            · obtain ⟨k, hk, rfl, hcell⟩ := (ih (n + 1) i).mp hmem
              exact ⟨k + 1, by simpa using Nat.succ_lt_succ hk, by omega,
                by rw [cellAt_cons_succ]; exact hcell⟩
          · rintro ⟨k, hk, rfl, hcell⟩
            cases k with
            | zero => exact Or.inl (by omega)
            | succ k =>
                refine Or.inr ((ih (n + 1) (n + (k + 1))).mpr ⟨k, ?_, by omega, ?_⟩)
                · simpa using Nat.lt_of_succ_lt_succ hk
                · rw [cellAt_cons_succ] at hcell; exact hcell
      | some q =>
          have hstep : List.filterMap
              (fun (iv : Nat × Cell) => if iv.2 = none then some iv.1 else none)
              ((n, (some q : Cell)) :: List.enumFrom (n + 1) cs) =
                List.filterMap
                  (fun (iv : Nat × Cell) => if iv.2 = none then some iv.1 else none)
                  (List.enumFrom (n + 1) cs) := by
            rw [List.filterMap_cons]
            rfl
          rw [hstep, ih (n + 1) i]
          constructor
          · rintro ⟨k, hk, rfl, hcell⟩
            exact ⟨k + 1, by simpa using Nat.succ_lt_succ hk, by omega,
              by rw [cellAt_cons_succ]; exact hcell⟩
          · rintro ⟨k, hk, rfl, hcell⟩
            cases k with
            | zero => rw [cellAt_cons_zero] at hcell; exact absurd hcell (by simp)
            | succ k =>
                refine ⟨k, by simpa using Nat.lt_of_succ_lt_succ hk, by omega, ?_⟩
                rw [cellAt_cons_succ] at hcell
                exact hcell

theorem mem_availableSquares {b : Board} {i : Nat} :
    i ∈ availableSquares b ↔ i < b.length ∧ cellAt b i = none := by
  rw [availableSquares, List.enum_eq_enumFrom, mem_avail_aux b 0 i]
  constructor
  · rintro ⟨k, hk, rfl, hc⟩
    exact ⟨by omega, by simpa using hc⟩
  · rintro ⟨hi, hc⟩
    exact ⟨i, hi, by omega, hc⟩

theorem chosen_mem_availableSquares {b : Board} {d : Nat}
    (h : 0 < (availableSquares b).length) :
    (availableSquares b).getD (d % (availableSquares b).length) 0 ∈
      availableSquares b := by
  have hlt : d % (availableSquares b).length < (availableSquares b).length :=
    Nat.mod_lt _ h
  rw [List.getD_eq_getElem?_getD, List.getElem?_eq_getElem hlt]
  exact List.getElem_mem hlt

/-- If both deterministic tiers miss, findBestMove returns the draw-selected
entry of availableSquares when one exists, else -1. -/
theorem findBestMove_fallback {b : Board} {p : Player} {d : Nat}
    (h1 : ∀ j, j < b.length → ¬ winNow b p j)
    (h2 : ∀ j, j < b.length → ¬ winNow b (opponentOf p) j) :
    findBestMove b p d =
      (if 0 < (availableSquares b).length then
        (((availableSquares b).getD (d % (availableSquares b).length) 0 : Nat) : Int)
      else -1) := by
  have hf1 : (List.range b.length).find?
      (fun i => (cellAt b i).isNone && winsAt b p i) = none :=
    find?_range_eq_none_iff.mpr fun j hj => tierPred_eq_false_iff.mpr (h1 j hj)
  have hf2 : (List.range b.length).find?
      (fun i => (cellAt b i).isNone && winsAt b (opponentOf p) i) = none :=
    find?_range_eq_none_iff.mpr fun j hj => tierPred_eq_false_iff.mpr (h2 j hj)
  unfold findBestMove
  rw [hf1, hf2]

/-- Master selection lemma: on a board with an empty cell, findBestMove
always returns the index of an empty cell, whatever the random draw. -/
theorem findBestMove_spec_empty {b : Board} {p : Player} {d : Nat}
    (h : ∃ i, i < b.length ∧ cellAt b i = none) :
    ∃ i, i < b.length ∧ cellAt b i = none ∧ findBestMove b p d = (i : Int) := by
  cases hf1 : (List.range b.length).find?
      (fun i => (cellAt b i).isNone && winsAt b p i) with
  | some i =>
      obtain ⟨hlt, hp, -⟩ := find?_range_eq_some_iff.mp hf1
      obtain ⟨hempty, -⟩ := tierPred_eq_true_iff.mp hp
      refine ⟨i, hlt, hempty, ?_⟩
      unfold findBestMove
      rw [hf1]
  | none =>
      cases hf2 : (List.range b.length).find?
          (fun i => (cellAt b i).isNone && winsAt b (opponentOf p) i) with
      | some i =>
          obtain ⟨hlt, hp, -⟩ := find?_range_eq_some_iff.mp hf2
          obtain ⟨hempty, -⟩ := tierPred_eq_true_iff.mp hp
          refine ⟨i, hlt, hempty, ?_⟩
          unfold findBestMove
          rw [hf1, hf2]
      | none =>
          obtain ⟨i0, hlt0, hempty0⟩ := h
          have hpos : 0 < (availableSquares b).length :=
            List.length_pos_of_mem (mem_availableSquares.mpr ⟨hlt0, hempty0⟩)
          have hc := chosen_mem_availableSquares (b := b) (d := d) hpos
          obtain ⟨hlt, hempty⟩ := mem_availableSquares.mp hc
          refine ⟨_, hlt, hempty, ?_⟩
          unfold findBestMove
          rw [hf1, hf2, if_pos hpos]

/-- On a board with no empty cell, findBestMove returns -1. -/
theorem findBestMove_eq_neg_one {b : Board} {p : Player} {d : Nat}
    (h : ¬ ∃ i, i < b.length ∧ cellAt b i = none) :
    findBestMove b p d = -1 := by
  push_neg at h
  have hnw : ∀ (m : Player) (j : Nat), j < b.length → ¬ winNow b m j := by
    intro m j hj hw
    exact absurd hw.1 (h j hj)
  rw [findBestMove_fallback (hnw p) (hnw (opponentOf p))]
  rw [if_neg]
  intro hpos
  obtain ⟨i, hi⟩ := List.exists_mem_of_length_pos hpos
  obtain ⟨hlt, hempty⟩ := mem_availableSquares.mp hi
  exact absurd hempty (h i hlt)

/-- C4: for every 9-cell board and player, whatever the random draw,
findBestMove returns an empty cell whenever one exists, and returns -1
exactly when the board has no empty cell. -/
theorem c4_findBestMove_safety (b : Board) (p : Player) (d : Nat)
    (hb : b.length = 9) :
    ((∃ i, i < b.length ∧ cellAt b i = none) →
      ∃ i, i < b.length ∧ cellAt b i = none ∧ findBestMove b p d = (i : Int)) ∧
    (findBestMove b p d = -1 ↔ ¬ ∃ i, i < b.length ∧ cellAt b i = none) := by
  refine ⟨fun h => findBestMove_spec_empty h, ?_, fun h => findBestMove_eq_neg_one h⟩
  intro hm
  by_contra h
  obtain ⟨i, -, -, hi⟩ := findBestMove_spec_empty (p := p) (d := d) h
  rw [hi] at hm
  omega

theorem c4_findBestMove_safety_witness :
    ∃ i, i < exOneLine.length ∧ cellAt exOneLine i = none ∧
      findBestMove exOneLine Player.O 7 = (i : Int) :=
  (c4_findBestMove_safety exOneLine Player.O 7 (by decide)).1 ⟨5, by decide, rfl⟩

/-! ## Win-now and block tiers: C2 and C3 -/

/-- Soundness of the evaluator: a returned verdict names a line of the
table all of whose cells hold the returned marker. -/
theorem calculateWinner_sound {b : Board} {r : Player × (Nat × Nat × Nat)}
    (h : calculateWinner b = some r) :
    r.2 ∈ lines ∧ cellAt b r.2.1 = some r.1 ∧ cellAt b r.2.2.1 = some r.1 ∧
      cellAt b r.2.2.2 = some r.1 := by
  obtain ⟨j, hj, hs, -⟩ := findLine_eq_some_iff.mp h
  obtain ⟨h2, ha, hb1, hc1⟩ := checkLine_eq_some_iff.mp hs
  have hmem : lines.getD j (0, 0, 0) ∈ lines := by
    rw [List.getD_eq_getElem?_getD, List.getElem?_eq_getElem hj]
    exact List.getElem_mem hj
  rw [h2]
  exact ⟨hmem, ha, hb1, hc1⟩

/-- Marker m holds two cells of line l and the third cell of l is empty. -/
def twoInLineWithEmpty (b : Board) (m : Player) (l : Nat × Nat × Nat) : Prop :=
  (cellAt b l.1 = some m ∧ cellAt b l.2.1 = some m ∧ cellAt b l.2.2 = none) ∨
  (cellAt b l.1 = some m ∧ cellAt b l.2.1 = none ∧ cellAt b l.2.2 = some m) ∨
  (cellAt b l.1 = none ∧ cellAt b l.2.1 = some m ∧ cellAt b l.2.2 = some m)

instance (b : Board) (m : Player) (l : Nat × Nat × Nat) :
    Decidable (twoInLineWithEmpty b m l) := by
  unfold twoInLineWithEmpty
  infer_instance

/-- If m has two in a line with the third cell empty, and the current
verdict of the board (if any) already names m, then completing that line
is an immediate winning move for m. -/
theorem winNow_of_twoInLine {b : Board} {m : Player} {l : Nat × Nat × Nat}
    (hb : b.length = 9) (hl : l ∈ lines) (htwo : twoInLineWithEmpty b m l)
    (hb2 : ∀ r, calculateWinner b = some r → r.1 = m) :
    ∃ e, e < b.length ∧ winNow b m e := by
  obtain ⟨ha9, hb9, hc9, hab, hac, hbc⟩ := lines_facts l hl
  have key : ∀ e, e < b.length → cellAt b e = none →
      completedLine (b.set e (some m)) l → ∃ x, x < b.length ∧ winNow b m x := by
    intro e helt he hcomp
    obtain ⟨r, hr⟩ := calculateWinner_isSome_of_completed hl hcomp
    have hm : r.1 = m := winner_set_marker he hb2 r hr
    refine ⟨e, helt, he, ?_⟩
    rw [hr, Option.map_some', hm]
  rcases htwo with ⟨h1, h2, h3⟩ | ⟨h1, h2, h3⟩ | ⟨h1, h2, h3⟩
  · refine key l.2.2 (by omega) h3 ⟨m, ?_, ?_, ?_⟩
    · rw [cellAt_set_ne (Ne.symm hac)]; exact h1
    · rw [cellAt_set_ne (Ne.symm hbc)]; exact h2
    · exact cellAt_set_self (by omega)
  · refine key l.2.1 (by omega) h2 ⟨m, ?_, ?_, ?_⟩
    · rw [cellAt_set_ne (Ne.symm hab)]; exact h1
    · exact cellAt_set_self (by omega)
    · rw [cellAt_set_ne hbc]; exact h3
  · refine key l.1 (by omega) h1 ⟨m, ?_, ?_, ?_⟩
    · exact cellAt_set_self (by omega)
    · rw [cellAt_set_ne hab]; exact h2
    · rw [cellAt_set_ne hac]; exact h3

/-- When some winning move for player exists, findBestMove returns the
first one in index order. -/
theorem findBestMove_tier1_of_exists {b : Board} {p : Player} {d : Nat}
    (h : ∃ e, e < b.length ∧ winNow b p e) :
    ∃ i, winNow b p i ∧ (∀ j, j < i → ¬ winNow b p j) ∧
      findBestMove b p d = (i : Int) := by
  obtain ⟨e, helt, he⟩ := h
  cases hf : (List.range b.length).find?
      (fun i => (cellAt b i).isNone && winsAt b p i) with
  | none =>
      have := find?_range_eq_none_iff.mp hf e helt
      exact absurd (tierPred_eq_true_iff.mpr he) (by rw [this]; simp)
  | some i =>
      obtain ⟨hlt, hp, hleast⟩ := find?_range_eq_some_iff.mp hf
      have hwin := tierPred_eq_true_iff.mp hp
      have hleast' : ∀ j, j < i → ¬ winNow b p j :=
        fun j hj => tierPred_eq_false_iff.mp (hleast j hj)
      exact ⟨i, hwin, hleast', findBestMove_tier1 hwin hlt hleast'⟩

/-- When player has no winning move but the opponent does, findBestMove
returns the first cell completing an opponent line, in index order. -/
theorem findBestMove_tier2_of_exists {b : Board} {p : Player} {d : Nat}
    (h1 : ∀ j, j < b.length → ¬ winNow b p j)
    (h : ∃ e, e < b.length ∧ winNow b (opponentOf p) e) :
    ∃ i, winNow b (opponentOf p) i ∧ (∀ j, j < i → ¬ winNow b (opponentOf p) j) ∧
      findBestMove b p d = (i : Int) := by
  obtain ⟨e, helt, he⟩ := h
  cases hf : (List.range b.length).find?
      (fun i => (cellAt b i).isNone && winsAt b (opponentOf p) i) with
  | none =>
      have := find?_range_eq_none_iff.mp hf e helt
      exact absurd (tierPred_eq_true_iff.mpr he) (by rw [this]; simp)
  | some i =>
      obtain ⟨hlt, hp, hleast⟩ := find?_range_eq_some_iff.mp hf
      have hwin := tierPred_eq_true_iff.mp hp
      have hleast' : ∀ j, j < i → ¬ winNow b (opponentOf p) j :=
        fun j hj => tierPred_eq_false_iff.mp (hleast j hj)
      exact ⟨i, hwin, hleast', findBestMove_tier2 h1 hwin hlt hleast'⟩

/-- The board of the C2 counterexample: O has already completed the top
row, X has two in the bottom row with cell 8 empty. -/
def exWonOpp : Board :=
  [some Player.O, some Player.O, some Player.O,
   none, none, none,
   some Player.X, some Player.X, none]

/-- C2 counterexample: on a 9-cell board where the player (X) has two
markers in a line (6,7,8) with the third cell empty, findBestMove does
not return a cell whose occupation by X makes the evaluator report X as
winner: no such cell exists (O's completed top row is found first by the
evaluator), and the selector returns 3, a cell that is not part of any
X two-in-a-line.  The claim fails for boards on which the evaluator
already reports the opponent as winner. -/
theorem c2_counterexample :
    exWonOpp.length = 9 ∧
    twoInLineWithEmpty exWonOpp Player.X (6, 7, 8) ∧ (6, 7, 8) ∈ lines ∧
    findBestMove exWonOpp Player.X 0 = 3 ∧
    (∀ i, i < 9 → ¬ winNow exWonOpp Player.X i) := by decide

/-- The C2 example board [X,X,null,O,O,null,null,null,null]. -/
def exWinNow : Board :=
  [some Player.X, some Player.X, none,
   some Player.O, some Player.O, none,
   none, none, none]

/-- C2 (amended): for every 9-cell board on which the evaluator does not
already report the opponent as winner, if the player has two markers in
some line with the third cell of that line empty, findBestMove returns
the first empty cell in index order whose hypothetical occupation by the
player makes the evaluator report the player as winner; in particular on
[X,X,null,O,O,null,null,null,null] with player X it returns index 2
whatever the draw. -/
theorem c2_findBestMove_win_now :
    (∀ (b : Board) (p : Player) (d : Nat) (l : Nat × Nat × Nat),
      b.length = 9 →
      (calculateWinner b).map Prod.fst ≠ some (opponentOf p) →
      l ∈ lines → twoInLineWithEmpty b p l →
      ∃ i, winNow b p i ∧ (∀ j, j < i → ¬ winNow b p j) ∧
        findBestMove b p d = (i : Int)) ∧
    (∀ d, findBestMove exWinNow Player.X d = 2) := by
  constructor
  · intro b p d l hb hno hl htwo
    have hb2 : ∀ r, calculateWinner b = some r → r.1 = p := by
      intro r hr
      have hne : r.1 ≠ opponentOf p := by
        intro hq
        exact hno (by rw [hr, Option.map_some', hq])
      cases hp : p <;> cases hw : r.1 <;> simp_all [opponentOf]
    exact findBestMove_tier1_of_exists (winNow_of_twoInLine hb hl htwo hb2)
  · intro d
    rfl

theorem c2_findBestMove_win_now_witness :
    ∃ i, winNow exWinNow Player.X i ∧ (∀ j, j < i → ¬ winNow exWinNow Player.X j) ∧
      findBestMove exWinNow Player.X 3 = (i : Int) :=
  c2_findBestMove_win_now.1 exWinNow Player.X 3 (0, 1, 2) (by decide) (by decide)
    (by decide) (by decide)

/-- The C3 example board [X,null,null,O,O,null,null,null,null]. -/
def exBlock : Board :=
  [some Player.X, none, none,
   some Player.O, some Player.O, none,
   none, none, none]

/-- C3: for every 9-cell board and player with no immediate winning
placement, if the opponent has two markers in some line with the third
cell empty, findBestMove returns the first empty cell in index order
whose hypothetical occupation by the opponent would make the evaluator
report the opponent as winner; in particular on
[X,null,null,O,O,null,null,null,null] with player X it returns index 5
whatever the draw. -/
theorem c3_findBestMove_block :
    (∀ (b : Board) (p : Player) (d : Nat) (l : Nat × Nat × Nat),
      b.length = 9 →
      (∀ j, j < b.length → ¬ winNow b p j) →
      l ∈ lines → twoInLineWithEmpty b (opponentOf p) l →
      ∃ i, winNow b (opponentOf p) i ∧
        (∀ j, j < i → ¬ winNow b (opponentOf p) j) ∧
        findBestMove b p d = (i : Int)) ∧
    (∀ d, findBestMove exBlock Player.X d = 5) := by
  constructor
  · intro b p d l hb h1 hl htwo
    have hb2 : ∀ r, calculateWinner b = some r → r.1 = opponentOf p := by
      intro r hr
      by_cases hq : r.1 = opponentOf p
      · exact hq
      · exfalso
        have hp : r.1 = p := by
          cases hpp : p <;> cases hw : r.1 <;> simp_all [opponentOf]
        -- the board already holds a completed line for p, so any empty
        -- cell would be an immediate winning move for p, contradicting h1
        obtain ⟨hmem, hx1, hx2, hx3⟩ := calculateWinner_sound hr
        obtain ⟨e, he9, hbe, -⟩ :
            ∃ e, e < 9 ∧ cellAt b e = none ∧ True := by
          rcases htwo with ⟨t1, t2, t3⟩ | ⟨t1, t2, t3⟩ | ⟨t1, t2, t3⟩
          · exact ⟨l.2.2, (lines_facts l hl).2.2.1, t3, trivial⟩
          · exact ⟨l.2.1, (lines_facts l hl).2.1, t2, trivial⟩
          · exact ⟨l.1, (lines_facts l hl).1, t1, trivial⟩
        have helt : e < b.length := by omega
        -- the completed line of r does not pass through e
        have hne1 : r.2.1 ≠ e := fun h => by rw [h, hbe] at hx1; cases hx1
        have hne2 : r.2.2.1 ≠ e := fun h => by rw [h, hbe] at hx2; cases hx2
        have hne3 : r.2.2.2 ≠ e := fun h => by rw [h, hbe] at hx3; cases hx3
        have hcomp : completedLine (b.set e (some p)) r.2 := by
          refine ⟨r.1, ?_, ?_, ?_⟩
          · rw [cellAt_set_ne (Ne.symm hne1)]; exact hx1
          · rw [cellAt_set_ne (Ne.symm hne2)]; exact hx2
          · rw [cellAt_set_ne (Ne.symm hne3)]; exact hx3
        obtain ⟨r', hr'⟩ := calculateWinner_isSome_of_completed hmem hcomp
        have hb2p : ∀ s, calculateWinner b = some s → s.1 = p := by
          intro s hs
          rw [hr] at hs
          obtain rfl : r = s := by injection hs
          exact hp
        have hm : r'.1 = p := winner_set_marker hbe hb2p r' hr'
        refine h1 e helt ⟨hbe, ?_⟩
        rw [hr', Option.map_some', hm]
    exact findBestMove_tier2_of_exists h1 (winNow_of_twoInLine hb hl htwo hb2)
  · intro d
    rfl

theorem c3_findBestMove_block_witness :
    ∃ i, winNow exBlock (opponentOf Player.X) i ∧
      (∀ j, j < i → ¬ winNow exBlock (opponentOf Player.X) j) ∧
      findBestMove exBlock Player.X 4 = (i : Int) :=
  c3_findBestMove_block.1 exBlock Player.X 4 (3, 4, 5) (by decide)
    (by decide) (by decide) (by decide)

/-! ## The simulation loop: full-game termination (C5) -/

/-- The initial board Array(9).fill(null). -/
def emptyBoard : Board := List.replicate 9 none

/-- The driver's terminal test: winner || isBoardFull, where
isBoardFull = squares.every(square => square !== null). -/
def isTerminal (b : Board) : Bool :=
  (calculateWinner b).isSome || b.all (fun sq => sq.isSome)

/-- One simulated game, n ticks of the driver loop: on each tick, stop
changing the board once terminal; otherwise select a move for the
current player (consuming one random draw from the stream ds), and if
it is not -1 apply it and flip the player. -/
def runGame (ds : Nat → Nat) : Nat → Board → Player → Board
  | 0, b, _ => b
  | Nat.succ n, b, p =>
    if isTerminal b then b
    else
      match findBestMove b p (ds 0) with
      | Int.ofNat i =>
          runGame (fun k => ds (k + 1)) n (b.set i (some p)) (opponentOf p)
      | Int.negSucc _ => runGame (fun k => ds (k + 1)) n b p

/-- Number of empty cells of a board. -/
def countEmpty (b : Board) : Nat := b.countP (fun c => c.isNone)

theorem countEmpty_set {b : Board} {i : Nat} {p : Player} :
    ∀ (hi : i < b.length) (he : cellAt b i = none),
      countEmpty (b.set i (some p)) + 1 = countEmpty b := by
  induction b generalizing i with
  | nil => intro hi; exact absurd hi (by simp)
  | cons c cs ih =>
      intro hi he
      cases i with
      | zero =>
          rw [cellAt_cons_zero] at he
          subst he
          simp [countEmpty, List.set_cons_zero, List.countP_cons]
      | succ i =>
          rw [cellAt_cons_succ] at he
          have hi' : i < cs.length := by simpa using Nat.lt_of_succ_lt_succ hi
          have := ih hi' he
          simp only [List.set_cons_succ, countEmpty, List.countP_cons] at this ⊢
          omega

theorem has_empty_of_not_full {b : Board}
    (h : b.all (fun sq => sq.isSome) = false) :
    ∃ i, i < b.length ∧ cellAt b i = none := by
  have : ¬ ∀ x ∈ b, (fun (sq : Cell) => sq.isSome) x = true := by
    rw [← List.all_eq_true]
    simp [h]
  push_neg at this
  obtain ⟨x, hx, hns⟩ := this
  obtain ⟨i, hi, hget⟩ := List.mem_iff_getElem.mp hx
  refine ⟨i, hi, ?_⟩
  rw [cellAt, List.getD_eq_getElem?_getD, List.getElem?_eq_getElem hi, hget]
  cases x with
  | none => rfl
  | some q => simp at hns

theorem isTerminal_of_countEmpty_zero {b : Board} (h : countEmpty b = 0) :
    isTerminal b = true := by
  have hall : b.all (fun sq => sq.isSome) = true := by
    rw [List.all_eq_true]
    intro x hx
    have := List.countP_eq_zero.mp h x hx
    cases x with
    | none => simp at this
    | some q => rfl
  rw [isTerminal, hall, Bool.or_true]

theorem isTerminal_runGame :
    ∀ (n : Nat) (ds : Nat → Nat) (b : Board) (p : Player),
      isTerminal (runGame ds n b p) = true ∨
        countEmpty (runGame ds n b p) + n ≤ countEmpty b := by
  intro n
  induction n with
  | zero =>
      intro ds b p
      right
      simp [runGame]
  | succ n ih =>
      intro ds b p
      by_cases hterm : isTerminal b = true
      · left
        simp only [runGame, if_pos hterm]
        exact hterm
      · have hfull : b.all (fun sq => sq.isSome) = false := by
          rcases Bool.or_eq_false_iff.mp
            (Bool.not_eq_true _ ▸ (by simpa [isTerminal] using hterm) :
              ((calculateWinner b).isSome || b.all (fun sq => sq.isSome)) = false)
            with ⟨-, h2⟩
          exact h2
        obtain ⟨i, hlt, hempty, hmi⟩ :=
          findBestMove_spec_empty (p := p) (d := ds 0)
            (has_empty_of_not_full hfull)
        have hstep : runGame ds (n + 1) b p =
            runGame (fun k => ds (k + 1)) n (b.set i (some p)) (opponentOf p) := by
          simp only [runGame, if_neg hterm, hmi]
        rw [hstep]
        rcases ih (fun k => ds (k + 1)) (b.set i (some p)) (opponentOf p) with h | h
        · exact Or.inl h
        · right
          have := countEmpty_set (p := p) hlt hempty
          omega

/-- C5: from the empty board, alternating findBestMove moves starting
with X reach a terminal board (winner or full) within 9 ticks, for every
stream of random draws; and the selector never returns -1 on a board
that still has an empty cell. -/
theorem c5_simulation_terminates :
    (∀ ds : Nat → Nat, isTerminal (runGame ds 9 emptyBoard Player.X) = true) ∧
    (∀ (b : Board) (p : Player) (d : Nat),
      (∃ i, i < b.length ∧ cellAt b i = none) → findBestMove b p d ≠ -1) := by
  constructor
  · intro ds
    rcases isTerminal_runGame 9 ds emptyBoard Player.X with h | h
    · exact h
    · apply isTerminal_of_countEmpty_zero
      have h9 : countEmpty emptyBoard = 9 := by decide
      omega
  · intro b p d h hm
    obtain ⟨i, -, -, hi⟩ := findBestMove_spec_empty h
    rw [hi] at hm
    omega

theorem c5_simulation_terminates_witness : findBestMove emptyBoard Player.X 0 ≠ -1 :=
  c5_simulation_terminates.2 emptyBoard Player.X 0 ⟨0, by decide, rfl⟩

/-! ## Result batching (C6) -/

/-- A recorded move { player, position }. -/
structure Move where
  player : Player
  position : Nat
deriving Repr, DecidableEq

/-- The string rendering of a marker used in the outcome label. -/
def playerString : Player → String
  | Player.X => "X"
  | Player.O => "O"

/-- The per-game record built on termination. -/
structure GameRecord where
  id : String
  outcome : String
  totalMoves : Nat
  finalBoardState : Board
  moves : List Move
  finishedAt : String
deriving Repr

/-- The resultData object of the batching effect (App.jsx lines 146-153):
outcome is "(winner) Wins" or "Draw"; id and timestamp are the opaque
strings produced by Date.now/Math.random and toISOString, passed in. -/
def mkResultData (gid : String) (squares : Board) (moveHistory : List Move)
    (ts : String) : GameRecord :=
  { id := gid
    outcome :=
      match (calculateWinner squares).map Prod.fst with
      | some w => playerString w ++ " Wins"
      | none => "Draw"
    totalMoves := moveHistory.length
    finalBoardState := squares
    moves := moveHistory
    finishedAt := ts }

/-- The setGameResultsBatch updater (App.jsx lines 155-163): append the
new record; at 10 or more records hand the whole batch to the
persistence sink (second component) and reset to empty. -/
def setGameResultsBatch (prevBatch : List GameRecord) (resultData : GameRecord) :
    List GameRecord × Option (List GameRecord) :=
  let newBatch := prevBatch ++ [resultData]
  if newBatch.length ≥ 10 then ([], some newBatch) else (newBatch, none)

/-- The whole batching effect (App.jsx lines 140-165): recompute the
verdict; if the game is over and at least one move was recorded, build
resultData and run the batch update, else leave the buffer alone. -/
def batchEffect (squares : Board) (moveHistory : List Move) (gid ts : String)
    (prevBatch : List GameRecord) : List GameRecord × Option (List GameRecord) :=
  let winner := (calculateWinner squares).map Prod.fst
  let isBoardFull := squares.all (fun sq => sq.isSome)
  if (winner.isSome || isBoardFull) && decide (0 < moveHistory.length) then
    setGameResultsBatch prevBatch (mkResultData gid squares moveHistory ts)
  else
    (prevBatch, none)

theorem winner_isSome_or_full_eq_isTerminal (b : Board) :
    (((calculateWinner b).map Prod.fst).isSome || b.all (fun sq => sq.isSome)) =
      isTerminal b := by
  unfold isTerminal
  cases calculateWinner b <;> simp

theorem batchEffect_eq (squares : Board) (mh : List Move) (gid ts : String)
    (buf : List GameRecord) :
    batchEffect squares mh gid ts buf =
      if isTerminal squares && decide (0 < mh.length) then
        setGameResultsBatch buf (mkResultData gid squares mh ts)
      else
        (buf, none) := by
  unfold batchEffect
  simp only [winner_isSome_or_full_eq_isTerminal]

/-- C6: assuming the buffer invariant (length below 10), the batching
effect appends a record exactly when the game is terminal with at least
one recorded move; an append from 9 records flushes all 10 records (in
completion order) to the sink in one submission and empties the buffer;
an append below that threshold only appends; and the invariant is
preserved. -/
theorem c6_batch_buffer (squares : Board) (mh : List Move) (gid ts : String)
    (buf : List GameRecord) (hlen : buf.length < 10) :
    (batchEffect squares mh gid ts buf).1.length < 10 ∧
    (¬ (isTerminal squares = true ∧ mh ≠ []) →
      batchEffect squares mh gid ts buf = (buf, none)) ∧
    (isTerminal squares = true → mh ≠ [] →
      (buf.length = 9 →
        batchEffect squares mh gid ts buf =
          ([], some (buf ++ [mkResultData gid squares mh ts])) ∧
        (buf ++ [mkResultData gid squares mh ts]).length = 10) ∧
      (buf.length < 9 →
        batchEffect squares mh gid ts buf =
          (buf ++ [mkResultData gid squares mh ts], none))) := by
  rw [batchEffect_eq]
  by_cases hcond : (isTerminal squares && decide (0 < mh.length)) = true
  · rw [Bool.and_eq_true] at hcond
    obtain ⟨ht, hd⟩ := hcond
    have hcond : (isTerminal squares && decide (0 < mh.length)) = true := by
      rw [Bool.and_eq_true]
      exact ⟨ht, hd⟩
    have hmh : mh ≠ [] := by
      rw [← List.length_pos]
      exact of_decide_eq_true hd
    rw [if_pos hcond]
    unfold setGameResultsBatch
    by_cases h9 : buf.length = 9
    · have : (buf ++ [mkResultData gid squares mh ts]).length ≥ 10 := by
        simp [List.length_append, h9]
      rw [if_pos this]
      refine ⟨by simp, fun hc => absurd ⟨ht, hmh⟩ hc, fun _ _ => ?_⟩
      exact ⟨fun _ => ⟨rfl, by simp [List.length_append, h9]⟩, fun hlt => by omega⟩
    · have hlt9 : buf.length < 9 := by omega
      have : ¬ (buf ++ [mkResultData gid squares mh ts]).length ≥ 10 := by
        simp [List.length_append]
        omega
      rw [if_neg this]
      refine ⟨by simp [List.length_append]; omega,
        fun hc => absurd ⟨ht, hmh⟩ hc, fun _ _ => ?_⟩
      exact ⟨fun h9' => absurd h9' h9, fun _ => rfl⟩
  · rw [if_neg hcond]
    refine ⟨hlen, fun _ => rfl, fun ht hmh => ?_⟩
    exfalso
    apply hcond
    rw [Bool.and_eq_true]
    exact ⟨ht, decide_eq_true (List.length_pos.mpr hmh)⟩

theorem c6_batch_buffer_witness :
    (batchEffect exOneLine [⟨Player.X, 0⟩] "game-1" "t" []).1.length < 10 ∧
    (¬ (isTerminal exOneLine = true ∧ ([⟨Player.X, 0⟩] : List Move) ≠ []) →
      batchEffect exOneLine [⟨Player.X, 0⟩] "game-1" "t" [] = ([], none)) ∧
    (isTerminal exOneLine = true → ([⟨Player.X, 0⟩] : List Move) ≠ [] →
      (([] : List GameRecord).length = 9 →
        batchEffect exOneLine [⟨Player.X, 0⟩] "game-1" "t" [] =
          ([], some ([] ++ [mkResultData "game-1" exOneLine [⟨Player.X, 0⟩] "t"])) ∧
        (([] : List GameRecord) ++
          [mkResultData "game-1" exOneLine [⟨Player.X, 0⟩] "t"]).length = 10) ∧
      (([] : List GameRecord).length < 9 →
        batchEffect exOneLine [⟨Player.X, 0⟩] "game-1" "t" [] =
          ([] ++ [mkResultData "game-1" exOneLine [⟨Player.X, 0⟩] "t"], none))) :=
  c6_batch_buffer exOneLine [⟨Player.X, 0⟩] "game-1" "t" [] (by decide)

/-! ## The driver transition and the pause control (C7) -/

/-- The running statistics { xWins, oWins, draws }. -/
structure Stats where
  xWins : Nat
  oWins : Nat
  draws : Nat
deriving Repr, DecidableEq

/-- The driver state touched by the simulation-loop effect. -/
structure SimState where
  squares : Board
  isXNext : Bool
  stats : Stats
  winningLine : Option (Nat × Nat × Nat)
  moveHistory : List Move
deriving Repr

/-- One pass of the simulation-loop effect (App.jsx lines 169-207),
with the terminal branch collapsed to its net effect: on a terminal
board, update the stats (winner's counter, or draws when full with no
winner), clear the board, history and winning-line indicator and reset
the active player to X — the winning line is set from the verdict and
cleared again by the delayed reset, so its net value is none; the pause
flag is consulted only after the terminal branch.  On a non-terminal
board with the pause flag clear, select a move for the active player
and, when it is not -1, apply it, record it and flip the player. -/
def simStep (s : SimState) (isPlaying : Bool) (draw : Nat) : SimState :=
  let gameResult := calculateWinner s.squares
  let winner := gameResult.map Prod.fst
  let isBoardFull := s.squares.all (fun sq => sq.isSome)
  if winner.isSome || isBoardFull then
    { squares := List.replicate 9 none
      isXNext := true
      stats :=
        { xWins := if winner = some Player.X then s.stats.xWins + 1 else s.stats.xWins
          oWins := if winner = some Player.O then s.stats.oWins + 1 else s.stats.oWins
          draws := if winner.isNone && isBoardFull then s.stats.draws + 1 else s.stats.draws }
      winningLine := none
      moveHistory := [] }
  else if !isPlaying then s
  else
    let player := if s.isXNext then Player.X else Player.O
    match findBestMove s.squares player draw with
    | Int.ofNat i =>
        { s with
          squares := s.squares.set i (some player)
          moveHistory := s.moveHistory ++ [⟨player, i⟩]
          isXNext := !s.isXNext }
    | Int.negSucc _ => s

theorem simStep_of_terminal {s : SimState} {playing : Bool} {d : Nat}
    (h : isTerminal s.squares = true) :
    simStep s playing d =
      { squares := List.replicate 9 none
        isXNext := true
        stats :=
          { xWins := if (calculateWinner s.squares).map Prod.fst = some Player.X then
                s.stats.xWins + 1 else s.stats.xWins
            oWins := if (calculateWinner s.squares).map Prod.fst = some Player.O then
                s.stats.oWins + 1 else s.stats.oWins
            draws := if ((calculateWinner s.squares).map Prod.fst).isNone &&
                  s.squares.all (fun sq => sq.isSome) then
                s.stats.draws + 1 else s.stats.draws }
        winningLine := none
        moveHistory := [] } := by
  unfold simStep
  simp only [winner_isSome_or_full_eq_isTerminal, h, if_true]

theorem simStep_of_paused {s : SimState} {d : Nat}
    (h : isTerminal s.squares = false) :
    simStep s false d = s := by
  unfold simStep
  simp only [winner_isSome_or_full_eq_isTerminal, h]
  rfl

/-- C7: the pause flag gates only the in-progress move step.  On a
terminal board the transition — incrementing exactly one stats counter,
then clearing the board, the move history and the winning-line
indicator and resetting the active player to X — is the same whether
paused or not; on a non-terminal board with the pause flag set, the
state is returned unchanged. -/
theorem c7_pause_gates_only_moves (s : SimState) (playing : Bool) (d : Nat) :
    (isTerminal s.squares = true →
      simStep s true d = simStep s false d ∧
      (simStep s playing d).squares = List.replicate 9 none ∧
      (simStep s playing d).moveHistory = [] ∧
      (simStep s playing d).isXNext = true ∧
      (simStep s playing d).winningLine = none ∧
      (simStep s playing d).stats.xWins + (simStep s playing d).stats.oWins +
          (simStep s playing d).stats.draws =
        s.stats.xWins + s.stats.oWins + s.stats.draws + 1 ∧
      ((simStep s playing d).stats.xWins = s.stats.xWins ∨
        (simStep s playing d).stats.xWins = s.stats.xWins + 1) ∧
      ((simStep s playing d).stats.oWins = s.stats.oWins ∨
        (simStep s playing d).stats.oWins = s.stats.oWins + 1) ∧
      ((simStep s playing d).stats.draws = s.stats.draws ∨
        (simStep s playing d).stats.draws = s.stats.draws + 1)) ∧
    (isTerminal s.squares = false → playing = false → simStep s playing d = s) := by
  constructor
  · intro h
    rw [@simStep_of_terminal s true d h, @simStep_of_terminal s false d h,
      @simStep_of_terminal s playing d h]
    refine ⟨rfl, rfl, rfl, rfl, rfl, ?_⟩
    cases hw : calculateWinner s.squares with
    | none =>
        have hfull : s.squares.all (fun sq => sq.isSome) = true := by
          have := winner_isSome_or_full_eq_isTerminal s.squares
          rw [h, hw] at this
          simpa using this
        simp [hw, hfull]
        omega
    | some r =>
        obtain ⟨w, l0⟩ := r
        cases w <;> simp [hw] <;> omega
  · intro h hp
    rw [hp]
    exact simStep_of_paused h

theorem c7_pause_gates_only_moves_witness :
    simStep { squares := exOneLine, isXNext := false,
              stats := { xWins := 3, oWins := 2, draws := 1 },
              winningLine := some (0, 1, 2),
              moveHistory := [⟨Player.X, 0⟩] } true 5 =
      simStep { squares := exOneLine, isXNext := false,
                stats := { xWins := 3, oWins := 2, draws := 1 },
                winningLine := some (0, 1, 2),
                moveHistory := [⟨Player.X, 0⟩] } false 5 :=
  ((c7_pause_gates_only_moves
    { squares := exOneLine, isXNext := false,
      stats := { xWins := 3, oWins := 2, draws := 1 },
      winningLine := some (0, 1, 2),
      moveHistory := [⟨Player.X, 0⟩] } true 5).1 (by decide)).1

/-! ## History fetching and sink failures (C8) -/

/-- A stored game as displayed by the history panel. -/
structure HistoryEntry where
  id : String
  outcome : String
  total_moves : Nat
  final_board_state : Board
  finished_at : String
deriving Repr

/-- loadThingsFromDatabase (App.jsx lines 22-40) over an abstract
transport outcome: none models fetch itself throwing (transport
failure); some (ok, body) models a settled response with its ok flag
and parsed body, body = none modelling a response.json() failure.  A
non-ok status throws, and every throw is caught and null returned. -/
def loadThingsFromDatabase {α : Type} (resp : Option (Bool × Option α)) : Option α :=
  match resp with
  | none => none
  | some (ok, body) => if ok then body else none

/-- The fetchHistory step: setGameHistory(historyData) only when the
load returned a non-null value, else the displayed list is untouched. -/
def fetchHistory (gameHistory : List HistoryEntry)
    (resp : Option (Bool × Option (List HistoryEntry))) : List HistoryEntry :=
  match loadThingsFromDatabase resp with
  | some historyData => historyData
  | none => gameHistory

/-- The component state of App relevant to the fetch step. -/
structure AppState where
  squares : Board
  isXNext : Bool
  stats : Stats
  winningLine : Option (Nat × Nat × Nat)
  moveHistory : List Move
  gameResultsBatch : List GameRecord
  gameHistory : List HistoryEntry
  isPlaying : Bool

/-- The fetchHistory effect on the whole component state: the only
state setter it calls is setGameHistory. -/
def appFetchHistory (st : AppState)
    (resp : Option (Bool × Option (List HistoryEntry))) : AppState :=
  { st with gameHistory := fetchHistory st.gameHistory resp }

/-- C8: the fetch-history operation returns null on transport failure
or non-ok status; a null result leaves the displayed history unchanged;
a non-null result fully replaces it; and the fetch step never alters
board, stats or batch buffer. -/
theorem c8_fetch_error_handling :
    (∀ (resp : Option (Bool × Option (List HistoryEntry))),
      (resp = none ∨ ∃ body, resp = some (false, body)) →
      loadThingsFromDatabase resp = none) ∧
    (∀ (hist : List HistoryEntry) (resp : Option (Bool × Option (List HistoryEntry))),
      loadThingsFromDatabase resp = none → fetchHistory hist resp = hist) ∧
    (∀ (hist dat : List HistoryEntry) (resp : Option (Bool × Option (List HistoryEntry))),
      loadThingsFromDatabase resp = some dat → fetchHistory hist resp = dat) ∧
    (∀ (st : AppState) (resp : Option (Bool × Option (List HistoryEntry))),
      (appFetchHistory st resp).squares = st.squares ∧
      (appFetchHistory st resp).stats = st.stats ∧
      (appFetchHistory st resp).gameResultsBatch = st.gameResultsBatch) := by
  refine ⟨?_, ?_, ?_, ?_⟩
  · rintro resp (rfl | ⟨body, rfl⟩)
    · rfl
    · rfl
  · intro hist resp h
    unfold fetchHistory
    rw [h]
  · intro hist dat resp h
    unfold fetchHistory
    rw [h]
  · intro st resp
    exact ⟨rfl, rfl, rfl⟩

theorem c8_fetch_error_handling_witness :
    loadThingsFromDatabase (some (false, some ([] : List HistoryEntry))) = none ∧
    fetchHistory [] (some (false, some ([] : List HistoryEntry))) = [] :=
  ⟨c8_fetch_error_handling.1 (some (false, some [])) (Or.inr ⟨some [], rfl⟩),
   c8_fetch_error_handling.2.1 [] (some (false, some []))
     (c8_fetch_error_handling.1 (some (false, some [])) (Or.inr ⟨some [], rfl⟩))⟩

/-! ## The unnamed source variant (C9) -/

/-- The line table of calculateWinner in the unnamed variant source file
(identical text). -/
def linesVariant : List (Nat × Nat × Nat) :=
  [(0, 1, 2), (3, 4, 5), (6, 7, 8),
   (0, 3, 6), (1, 4, 7), (2, 5, 8),
   (0, 4, 8), (2, 4, 6)]

/-- The loop body of the variant calculateWinner (identical text). -/
def checkLineVariant (squares : Board) (l : Nat × Nat × Nat) :
    Option (Player × (Nat × Nat × Nat)) :=
  match cellAt squares l.1 with
  | some p =>
      if cellAt squares l.2.1 = some p ∧ cellAt squares l.2.2 = some p then
        some (p, l)
      else
        none
  | none => none

/-- The for-of loop of the variant calculateWinner (identical text). -/
def findLineVariant (squares : Board) :
    List (Nat × Nat × Nat) → Option (Player × (Nat × Nat × Nat))
  | [] => none
  | l :: ls =>
    match checkLineVariant squares l with
    | some r => some r
    | none => findLineVariant squares ls

/-- calculateWinner from the unnamed variant source file, lines 64-77. -/
def calculateWinnerVariant (squares : Board) : Option (Player × (Nat × Nat × Nat)) :=
  findLineVariant squares linesVariant

/-- The variant's tier body, testing
calculateWinner(tempSquares)?.winner === m with the variant evaluator. -/
def winsAtVariant (currentSquares : Board) (m : Player) (i : Nat) : Bool :=
  match calculateWinnerVariant (currentSquares.set i (some m)) with
  | some r => decide (r.1 = m)
  | none => false

/-- The variant's availableSquares computation (identical text). -/
def availableSquaresVariant (currentSquares : Board) : List Nat :=
  currentSquares.enum.filterMap fun iv => if iv.2 = none then some iv.1 else none

/-- findBestMove from the unnamed variant source file, lines 108-139:
identical to the App.jsx version except that both tier loops run
i from 0 to the literal 9 instead of currentSquares.length, and the
final return is the literal -1 instead of the move variable. -/
def findBestMoveVariant (currentSquares : Board) (player : Player) (draw : Nat) : Int :=
  match (List.range 9).find?
      (fun i => (cellAt currentSquares i).isNone && winsAtVariant currentSquares player i) with
  | some i => (i : Int)
  | none =>
    match (List.range 9).find?
        (fun i => (cellAt currentSquares i).isNone &&
          winsAtVariant currentSquares (opponentOf player) i) with
    | some i => (i : Int)
    | none =>
      if 0 < (availableSquaresVariant currentSquares).length then
        (((availableSquaresVariant currentSquares).getD
          (draw % (availableSquaresVariant currentSquares).length) 0 : Nat) : Int)
      else
        -1

theorem findLine_eq_findLineVariant (b : Board) :
    ∀ L, findLine b L = findLineVariant b L := by
  intro L
  induction L with
  | nil => rfl
  | cons l ls ih =>
      unfold findLine findLineVariant
      rw [show checkLineVariant b l = checkLine b l from rfl]
      cases h : checkLine b l with
      | some r => rfl
      | none => exact ih

theorem calculateWinner_eq_variant (b : Board) :
    calculateWinner b = calculateWinnerVariant b := by
  unfold calculateWinner calculateWinnerVariant
  rw [show linesVariant = lines from rfl]
  exact findLine_eq_findLineVariant b lines

theorem winsAt_eq_variant (b : Board) (m : Player) (i : Nat) :
    winsAt b m i = winsAtVariant b m i := by
  unfold winsAt winsAtVariant
  rw [calculateWinner_eq_variant]

/-- C9: on 9-cell boards the two source variants compute the same
verdicts and, for the same player and random draw, pick the same move. -/
theorem c9_variant_equivalence (b : Board) (p : Player) (d : Nat)
    (hb : b.length = 9) :
    calculateWinner b = calculateWinnerVariant b ∧
    findBestMove b p d = findBestMoveVariant b p d := by
  refine ⟨calculateWinner_eq_variant b, ?_⟩
  unfold findBestMove findBestMoveVariant
  rw [hb]
  rw [show (fun i => (cellAt b i).isNone && winsAt b p i) =
      (fun i => (cellAt b i).isNone && winsAtVariant b p i) from
    funext fun i => by rw [winsAt_eq_variant]]
  rw [show (fun i => (cellAt b i).isNone && winsAt b (opponentOf p) i) =
      (fun i => (cellAt b i).isNone && winsAtVariant b (opponentOf p) i) from
    funext fun i => by rw [winsAt_eq_variant]]
  rfl

theorem c9_variant_equivalence_witness :
    calculateWinner exBlock = calculateWinnerVariant exBlock ∧
    findBestMove exBlock Player.X 2 = findBestMoveVariant exBlock Player.X 2 :=
  c9_variant_equivalence exBlock Player.X 2 (by decide)

/-! ## No mutation of the input board (C10)

To state that findBestMove leaves the array its caller passed in
untouched, the JS heap is made explicit: a store of allocated arrays,
references as indices into it.  The spread [...currentSquares]
allocates a fresh array; tempSquares[i] = marker writes through the
fresh reference only.  Had the code aliased instead of copied, the
input reference would be seen mutated. -/

/-- The allocated arrays of the JS heap; a reference is an index. -/
abbrev Store := List Board

/-- Dereference: the array a reference points to. -/
def readArr (σ : Store) (r : Nat) : Board := σ.getD r []

/-- Allocate a fresh array holding b; returns the new store and the
fresh reference. -/
def allocArr (σ : Store) (b : Board) : Store × Nat := (σ ++ [b], σ.length)

/-- Assign cell i of the array behind reference r. -/
def writeArr (σ : Store) (r i : Nat) (v : Cell) : Store :=
  σ.set r ((σ.getD r []).set i v)

/-- calculateWinner only reads its argument, so the store is unchanged. -/
def calculateWinnerRef (σ : Store) (squares : Nat) :
    Option (Player × (Nat × Nat × Nat)) × Store :=
  (findLine (readArr σ squares) lines, σ)

/-- One selector tier with the heap explicit: for each index, if the
cell read through currentSquares is empty, allocate the spread copy,
write the marker into the copy, and test the verdict computed from the
copy; return the index on success. -/
def tierLoopRef (cs : Nat) (m : Player) :
    List Nat → Store → Option Nat × Store
  | [], σ => (none, σ)
  | i :: rest, σ =>
    if (cellAt (readArr σ cs) i).isNone then
      let alloc := allocArr σ (readArr σ cs)
      let σ2 := writeArr alloc.1 alloc.2 i (some m)
      let res := calculateWinnerRef σ2 alloc.2
      if (match res.1 with | some r => decide (r.1 = m) | none => false) then
        (some i, res.2)
      else
        tierLoopRef cs m rest res.2
    else
      tierLoopRef cs m rest σ

/-- findBestMove with the heap explicit: run the win tier, then the
block tier, then the read-only random fallback, threading the store. -/
def findBestMoveRef (σ : Store) (cs : Nat) (player : Player) (draw : Nat) :
    Int × Store :=
  match tierLoopRef cs player (List.range (readArr σ cs).length) σ with
  | (some i, σ1) => ((i : Int), σ1)
  | (none, σ1) =>
    match tierLoopRef cs (opponentOf player)
        (List.range (readArr σ1 cs).length) σ1 with
    | (some i, σ2) => ((i : Int), σ2)
    | (none, σ2) =>
      (if 0 < (availableSquares (readArr σ2 cs)).length then
        (((availableSquares (readArr σ2 cs)).getD
          (draw % (availableSquares (readArr σ2 cs)).length) 0 : Nat) : Int)
      else -1, σ2)

theorem getD_set_ne_generic {α : Type} {l : List α} {t r : Nat} {x dflt : α}
    (h : t ≠ r) : (l.set t x).getD r dflt = l.getD r dflt := by
  simp [List.getD_eq_getElem?_getD, List.getElem?_set_ne h]

theorem getD_set_self_generic {α : Type} {l : List α} {t : Nat} {x dflt : α}
    (h : t < l.length) : (l.set t x).getD t dflt = x := by
  simp [List.getD_eq_getElem?_getD, List.getElem?_set_self h]

theorem getD_append_left_generic {α : Type} {l l' : List α} {r : Nat} {dflt : α}
    (h : r < l.length) : (l ++ l').getD r dflt = l.getD r dflt := by
  simp [List.getD_eq_getElem?_getD, List.getElem?_append_left h]

theorem getD_concat_self_generic {α : Type} {l : List α} {x dflt : α} :
    (l ++ [x]).getD l.length dflt = x := by
  simp [List.getD_eq_getElem?_getD, List.getElem?_concat_length]

/-- The store after one iteration's allocate-and-write step. -/
def stepStore (σ : Store) (B : Board) (i : Nat) (m : Player) : Store :=
  writeArr (σ ++ [B]) σ.length i (some m)

theorem length_stepStore {σ : Store} {B : Board} {i : Nat} {m : Player} :
    (stepStore σ B i m).length = σ.length + 1 := by
  simp [stepStore, writeArr]

theorem readArr_stepStore_lt {σ : Store} {B : Board} {i r : Nat} {m : Player}
    (h : r < σ.length) : readArr (stepStore σ B i m) r = readArr σ r := by
  unfold stepStore writeArr readArr
  rw [getD_set_ne_generic (by omega), getD_append_left_generic h]

theorem readArr_stepStore_self {σ : Store} {B : Board} {i : Nat} {m : Player} :
    readArr (stepStore σ B i m) σ.length = B.set i (some m) := by
  unfold stepStore writeArr readArr
  rw [getD_set_self_generic (by simp), getD_concat_self_generic]

theorem tierLoopRef_unfold_pos {cs : Nat} {m : Player} {i : Nat} {rest : List Nat}
    {σ : Store} (hc : (cellAt (readArr σ cs) i).isNone = true) :
    tierLoopRef cs m (i :: rest) σ =
      (if winsAt (readArr σ cs) m i then
        (some i, stepStore σ (readArr σ cs) i m)
      else
        tierLoopRef cs m rest (stepStore σ (readArr σ cs) i m)) := by
  rw [tierLoopRef, if_pos hc]
  have hread : readArr (writeArr (σ ++ [readArr σ cs]) σ.length i (some m)) σ.length =
      (readArr σ cs).set i (some m) := readArr_stepStore_self
  simp only [calculateWinnerRef, allocArr]
  rw [hread]
  rfl

theorem tierLoopRef_unfold_neg {cs : Nat} {m : Player} {i : Nat} {rest : List Nat}
    {σ : Store} (hc : ¬ (cellAt (readArr σ cs) i).isNone = true) :
    tierLoopRef cs m (i :: rest) σ = tierLoopRef cs m rest σ := by
  rw [tierLoopRef, if_neg hc]

/-- The tier loop only allocates fresh arrays and writes through fresh
references: every pre-existing reference still points to the same array
afterwards, and the store only grows. -/
theorem tierLoopRef_frame {cs : Nat} {m : Player} :
    ∀ (is : List Nat) (σ : Store),
      (∀ r, r < σ.length → readArr (tierLoopRef cs m is σ).2 r = readArr σ r) ∧
      σ.length ≤ (tierLoopRef cs m is σ).2.length := by
  intro is
  induction is with
  | nil => intro σ; exact ⟨fun r _ => by rw [tierLoopRef], by rw [tierLoopRef]⟩
  | cons i rest ih =>
      intro σ
      by_cases hc : (cellAt (readArr σ cs) i).isNone = true
      · rw [tierLoopRef_unfold_pos hc]
        by_cases hw : winsAt (readArr σ cs) m i = true
        · rw [if_pos hw]
          exact ⟨fun r hr => readArr_stepStore_lt hr, by rw [length_stepStore]; omega⟩
        · rw [if_neg hw]
          obtain ⟨hread, hlen⟩ := ih (stepStore σ (readArr σ cs) i m)
          constructor
          · intro r hr
            rw [hread r (by rw [length_stepStore]; omega), readArr_stepStore_lt hr]
          · rw [length_stepStore] at hlen
            omega
      · rw [tierLoopRef_unfold_neg hc]
        exact ih σ

/-- The tier loop computes, in its value component, exactly the find?
of the pure findBestMove tier over the array currentSquares refers to. -/
theorem tierLoopRef_val {cs : Nat} {m : Player} :
    ∀ (is : List Nat) (σ : Store), cs < σ.length →
      (tierLoopRef cs m is σ).1 =
        is.find? (fun i => (cellAt (readArr σ cs) i).isNone && winsAt (readArr σ cs) m i) := by
  intro is
  induction is with
  | nil => intro σ _; rw [tierLoopRef]; rfl
  | cons i rest ih =>
      intro σ hcs
      by_cases hc : (cellAt (readArr σ cs) i).isNone = true
      · rw [tierLoopRef_unfold_pos hc]
        by_cases hw : winsAt (readArr σ cs) m i = true
        · rw [if_pos hw, List.find?_cons_of_pos _ (by rw [hc, hw]; rfl)]
        · rw [if_neg hw]
          have hw' : winsAt (readArr σ cs) m i = false := by
            cases h : winsAt (readArr σ cs) m i
            · rfl
            · exact absurd h hw
          rw [List.find?_cons_of_neg _ (by rw [hc, hw']; simp)]
          have hcs2 : cs < (stepStore σ (readArr σ cs) i m).length := by
            rw [length_stepStore]; omega
          rw [ih (stepStore σ (readArr σ cs) i m) hcs2,
            readArr_stepStore_lt hcs]
      · have hc' : (cellAt (readArr σ cs) i).isNone = false := by
          cases h : (cellAt (readArr σ cs) i).isNone
          · rfl
          · exact absurd h hc
        rw [tierLoopRef_unfold_neg hc,
          List.find?_cons_of_neg _ (by rw [hc']; simp), ih σ hcs]

/-- C10: findBestMove never mutates its input array: every hypothetical
placement is written to a spread copy, so when the heap is explicit the
array behind the currentSquares reference is unchanged on return and
the returned move agrees with the pure findBestMove on that array;
calculateWinner likewise only reads, leaving the store untouched. -/
theorem c10_no_mutation :
    (∀ (σ : Store) (cs : Nat) (p : Player) (d : Nat), cs < σ.length →
      readArr (findBestMoveRef σ cs p d).2 cs = readArr σ cs ∧
      (findBestMoveRef σ cs p d).1 = findBestMove (readArr σ cs) p d) ∧
    (∀ (σ : Store) (cs : Nat),
      (calculateWinnerRef σ cs).2 = σ ∧
      (calculateWinnerRef σ cs).1 = calculateWinner (readArr σ cs)) := by
  constructor
  · intro σ cs p d hcs
    have t1val := tierLoopRef_val (m := p) (List.range (readArr σ cs).length) σ hcs
    have t1frame := @tierLoopRef_frame cs p (List.range (readArr σ cs).length) σ
    rcases h1 : tierLoopRef cs p (List.range (readArr σ cs).length) σ with ⟨v1, σ1⟩
    rw [h1] at t1val t1frame
    simp only at t1val t1frame
    have hread1 : readArr σ1 cs = readArr σ cs := t1frame.1 cs hcs
    have hcs1 : cs < σ1.length := by have := t1frame.2; omega
    cases v1 with
    | some i =>
        unfold findBestMoveRef
        rw [h1]
        refine ⟨hread1, ?_⟩
        unfold findBestMove
        rw [← t1val]
    | none =>
        have t2val := tierLoopRef_val (m := opponentOf p)
          (List.range (readArr σ1 cs).length) σ1 hcs1
        have t2frame := @tierLoopRef_frame cs (opponentOf p)
          (List.range (readArr σ1 cs).length) σ1
        rcases h2 : tierLoopRef cs (opponentOf p)
            (List.range (readArr σ1 cs).length) σ1 with ⟨v2, σ2⟩
        rw [h2] at t2val t2frame
        simp only at t2val t2frame
        have hread2 : readArr σ2 cs = readArr σ cs := by
          rw [t2frame.1 cs hcs1, hread1]
        rw [hread1] at t2val
        cases v2 with
        | some i =>
            unfold findBestMoveRef
            rw [h1]
            simp only [h2]
            refine ⟨hread2, ?_⟩
            unfold findBestMove
            rw [← t1val, ← t2val]
        | none =>
            unfold findBestMoveRef
            rw [h1]
            simp only [h2]
            refine ⟨hread2, ?_⟩
            unfold findBestMove
            rw [← t1val, ← t2val, hread2]
  · intro σ cs
    exact ⟨rfl, rfl⟩

theorem c10_no_mutation_witness :
    readArr (findBestMoveRef [exBlock] 0 Player.X 1).2 0 = readArr [exBlock] 0 ∧
    (findBestMoveRef [exBlock] 0 Player.X 1).1 =
      findBestMove (readArr [exBlock] 0) Player.X 1 :=
  c10_no_mutation.1 [exBlock] 0 Player.X 1 (by decide)
